import Mathlib

/-!
Shallow embedding of `src/lempel_ziv_complexity.py` (Lempel-Ziv LZ76 complexity).

The Python module exposes two entry points sharing one parse loop:

* `lempel_ziv_decomposition(sequence)` — a `while True` loop over a cursor
  `ind` and a candidate length `inc`, maintaining an insertion-ordered dict
  `sub_strings` used as a set of phrase contents; it returns
  `list(sub_strings)`, the phrases in insertion order.
* `lempel_ziv_complexity_slow(sequence)` — the same loop, returning
  `len(sub_strings)`.

We model sequences as `List α` with decidable equality (the source works on
any sequence of equality-comparable symbols), the dict-as-set as a `List`
of phrase contents (keys are only inserted when absent, and `list(dict)`
yields keys in insertion order, so an append-only list of distinct contents
is an exact model), and the `while True` loop as a fuel-indexed recursion.
Each loop iteration increases `ind + inc` by exactly 1 and the loop breaks
as soon as `ind + inc > n`, so fuel `n + 1` always suffices; this is proved
below (`lzLoop_fuel_stable`), making the fuel-indexed functions a faithful
embedding of the unbounded loop.
-/

universe u

set_option linter.unusedSectionVars false

variable {α : Type u} [DecidableEq α]

/-- The slice `sequence[ind : ind + inc]` taken by the parse loop
(Python slicing of `inc` symbols starting at `ind`). -/
def candidate (s : List α) (ind inc : Nat) : List α :=
  (s.drop ind).take inc

/-- The `while True` parse loop of `lempel_ziv_decomposition`:
break when `ind + inc > len(sequence)`; if the current slice is already a
member of `sub_strings`, grow the candidate (`inc += 1`); otherwise insert
it (`sub_strings[sub_str] = 0`, modelled as appending to the ordered key
list) and advance (`ind += inc; inc = 1`). The final `list(sub_strings)`
is the accumulated list itself. -/
def lzLoop (s : List α) : Nat → Nat → Nat → List (List α) → List (List α)
  | 0, _, _, subs => subs
  | fuel + 1, ind, inc, subs =>
    if s.length < ind + inc then subs
    else if candidate s ind inc ∈ subs then
      lzLoop s fuel ind (inc + 1) subs
    else
      lzLoop s fuel (ind + inc) 1 (subs ++ [candidate s ind inc])

/-- Entry point `lempel_ziv_decomposition(sequence)`: run the parse loop from
`ind = 0`, `inc = 1`, empty `sub_strings`, and return the insertion-ordered
list of phrase contents. -/
def lempel_ziv_decomposition (s : List α) : List (List α) :=
  lzLoop s (s.length + 1) 0 1 []

/-- The `while True` loop of `lempel_ziv_complexity_slow`: identical to the
loop of `lempel_ziv_decomposition`, except that it returns
`len(sub_strings)` instead of `list(sub_strings)`. -/
def lzCountLoop (s : List α) : Nat → Nat → Nat → List (List α) → Nat
  | 0, _, _, subs => subs.length
  | fuel + 1, ind, inc, subs =>
    if s.length < ind + inc then subs.length
    else if candidate s ind inc ∈ subs then
      lzCountLoop s fuel ind (inc + 1) subs
    else
      lzCountLoop s fuel (ind + inc) 1 (subs ++ [candidate s ind inc])

/-- Entry point `lempel_ziv_complexity_slow(sequence)`: run the counting parse loop
from `ind = 0`, `inc = 1`, empty `sub_strings`. -/
def lempel_ziv_complexity_slow (s : List α) : Nat :=
  lzCountLoop s (s.length + 1) 0 1 []

/-- An instrumented variant of the parse loop that checks, at the moment
the slice `sequence[ind : ind + inc]` is taken, that the slice lies within
bounds (`ind + inc ≤ len(sequence)`), and signals `none` (an unreachable
indexing-error branch) otherwise. -/
def lzLoopChecked (s : List α) :
    Nat → Nat → Nat → List (List α) → Option (List (List α))
  | 0, _, _, subs => some subs
  | fuel + 1, ind, inc, subs =>
    if s.length < ind + inc then some subs
    else if ind + inc ≤ s.length then
      if candidate s ind inc ∈ subs then lzLoopChecked s fuel ind (inc + 1) subs
      else lzLoopChecked s fuel (ind + inc) 1 (subs ++ [candidate s ind inc])
    else none

/-! ## Helper lemmas about the parse loop -/

theorem lzCountLoop_eq_length (s : List α) :
    ∀ fuel ind inc subs,
      lzCountLoop s fuel ind inc subs = (lzLoop s fuel ind inc subs).length
  | 0, _, _, _ => rfl
  | fuel + 1, ind, inc, subs => by
    by_cases h1 : s.length < ind + inc
    · simp [lzCountLoop, lzLoop, h1]
    · by_cases h2 : candidate s ind inc ∈ subs
      · simp only [lzCountLoop, lzLoop, if_neg h1, if_pos h2]
        exact lzCountLoop_eq_length s fuel ind (inc + 1) subs
      · simp only [lzCountLoop, lzLoop, if_neg h1, if_neg h2]
        exact lzCountLoop_eq_length s fuel (ind + inc) 1 _

theorem lzLoop_fuel_stable (s : List α) :
    ∀ fuel ind inc subs, s.length + 1 ≤ ind + inc + fuel →
      lzLoop s (fuel + 1) ind inc subs = lzLoop s fuel ind inc subs
  | 0, ind, inc, subs => fun h => by
    have h1 : s.length < ind + inc := by omega
    simp [lzLoop, h1]
  | fuel + 1, ind, inc, subs => fun h => by
    by_cases h1 : s.length < ind + inc
    · simp [lzLoop, h1]
    · by_cases h2 : candidate s ind inc ∈ subs
      · simp only [lzLoop, if_neg h1, if_pos h2]
        exact lzLoop_fuel_stable s fuel ind (inc + 1) subs (by omega)
      · simp only [lzLoop, if_neg h1, if_neg h2]
        exact lzLoop_fuel_stable s fuel (ind + inc) 1 _ (by omega)

theorem lzLoop_nodup (s : List α) :
    ∀ fuel ind inc subs, subs.Nodup → (lzLoop s fuel ind inc subs).Nodup
  | 0, _, _, _ => fun h => h
  | fuel + 1, ind, inc, subs => fun hnd => by
    by_cases h1 : s.length < ind + inc
    · simpa [lzLoop, h1] using hnd
    · by_cases h2 : candidate s ind inc ∈ subs
      · simp only [lzLoop, if_neg h1, if_pos h2]
        exact lzLoop_nodup s fuel ind (inc + 1) subs hnd
      · simp only [lzLoop, if_neg h1, if_neg h2]
        refine lzLoop_nodup s fuel (ind + inc) 1 _ ?_
        simp only [List.nodup_append, List.Disjoint]
        refine ⟨hnd, List.nodup_singleton _, ?_⟩
        intro a ha hax
        rw [List.mem_singleton] at hax
        exact h2 (hax ▸ ha)

theorem lzLoop_flatten (s : List α) :
    ∀ fuel ind inc subs, ind ≤ s.length → subs.flatten = s.take ind →
      ∃ m, ind ≤ m ∧ m ≤ s.length ∧ (lzLoop s fuel ind inc subs).flatten = s.take m
  | 0, ind, _, subs => fun hind hj => ⟨ind, le_refl _, hind, hj⟩
  | fuel + 1, ind, inc, subs => fun hind hj => by
    by_cases h1 : s.length < ind + inc
    · exact ⟨ind, le_refl _, hind, by simpa [lzLoop, h1] using hj⟩
    · by_cases h2 : candidate s ind inc ∈ subs
      · simp only [lzLoop, if_neg h1, if_pos h2]
        exact lzLoop_flatten s fuel ind (inc + 1) subs hind hj
      · simp only [lzLoop, if_neg h1, if_neg h2]
        have hle : ind + inc ≤ s.length := Nat.le_of_not_lt h1
        have hj' : (subs ++ [candidate s ind inc]).flatten = s.take (ind + inc) := by
          rw [List.flatten_append, hj, List.take_add]
          simp [candidate]
        obtain ⟨m, hm1, hm2, hm3⟩ := lzLoop_flatten s fuel (ind + inc) 1 _ hle hj'
        exact ⟨m, by omega, hm2, hm3⟩

theorem lz_exit_tail_mem (s : List α) (ind inc : Nat) (subs : List (List α))
    (hfit : s.length + 1 ≤ ind + inc) (hind : ind ≤ s.length)
    (hj : subs.flatten = s.take ind)
    (hinv : 2 ≤ inc → candidate s ind (inc - 1) ∈ subs)
    (hne : s.drop subs.flatten.length ≠ []) :
    s.drop subs.flatten.length ∈ subs := by
  have hlen : subs.flatten.length = ind := by
    rw [hj, List.length_take]
    omega
  rw [hlen] at hne ⊢
  have hlt : ind < s.length := by
    rcases Nat.lt_or_ge ind s.length with h | h
    · exact h
    · exact absurd (List.drop_eq_nil_of_le h) hne
  have hc := hinv (by omega)
  have hcand : candidate s ind (inc - 1) = s.drop ind :=
    List.take_of_length_le (by rw [List.length_drop]; omega)
  rwa [hcand] at hc

theorem lzLoop_tail_mem (s : List α) :
    ∀ fuel ind inc subs,
      s.length + 1 ≤ ind + inc + fuel →
      ind ≤ s.length →
      subs.flatten = s.take ind →
      (2 ≤ inc → candidate s ind (inc - 1) ∈ subs) →
      s.drop (lzLoop s fuel ind inc subs).flatten.length ≠ [] →
      s.drop (lzLoop s fuel ind inc subs).flatten.length ∈ lzLoop s fuel ind inc subs
  | 0, ind, inc, subs => fun hfuel hind hj hinv hne => by
    simp only [lzLoop] at hne ⊢
    exact lz_exit_tail_mem s ind inc subs (by omega) hind hj hinv hne
  | fuel + 1, ind, inc, subs => fun hfuel hind hj hinv hne => by
    by_cases h1 : s.length < ind + inc
    · simp only [lzLoop, if_pos h1] at hne ⊢
      exact lz_exit_tail_mem s ind inc subs (by omega) hind hj hinv hne
    · by_cases h2 : candidate s ind inc ∈ subs
      · simp only [lzLoop, if_neg h1, if_pos h2] at hne ⊢
        exact lzLoop_tail_mem s fuel ind (inc + 1) subs (by omega) hind hj
          (fun _ => by simpa using h2) hne
      · simp only [lzLoop, if_neg h1, if_neg h2] at hne ⊢
        have hle : ind + inc ≤ s.length := Nat.le_of_not_lt h1
        have hj' : (subs ++ [candidate s ind inc]).flatten = s.take (ind + inc) := by
          rw [List.flatten_append, hj, List.take_add]
          simp [candidate]
        exact lzLoop_tail_mem s fuel (ind + inc) 1 _ (by omega) hle hj'
          (fun habs => absurd habs (by omega)) hne

/-- The prefix-closure property of a phrase list: every proper non-empty
prefix of any phrase occurs among the phrases strictly before it. -/
def prefixClosed (l : List (List α)) : Prop :=
  ∀ (i : Nat) (h : i < l.length) (k : Nat),
    1 ≤ k → k < l[i].length → l[i].take k ∈ l.take i

theorem prefixClosed_concat {l : List (List α)} {x : List α}
    (hl : prefixClosed l) (hx : ∀ k, 1 ≤ k → k < x.length → x.take k ∈ l) :
    prefixClosed (l ++ [x]) := by
  intro i h k hk1 hk2
  rcases Nat.lt_or_ge i l.length with hi | hi
  · have hgl : (l ++ [x])[i] = l[i] := List.getElem_append_left hi
    rw [hgl] at hk2 ⊢
    rw [List.take_append_of_le_length (Nat.le_of_lt hi)]
    exact hl i hi k hk1 hk2
  · have hieq : i = l.length := by
      have hlt : i < l.length + 1 := by simpa using h
      omega
    have hgl : (l ++ [x])[i] = x := List.getElem_concat_length l x i hieq h
    rw [hgl] at hk2 ⊢
    rw [hieq, List.take_append_of_le_length (le_refl _), List.take_length]
    exact hx k hk1 hk2

theorem lzLoop_prefixClosed (s : List α) :
    ∀ fuel ind inc subs,
      prefixClosed subs →
      (∀ k, 1 ≤ k → k < inc → candidate s ind k ∈ subs) →
      prefixClosed (lzLoop s fuel ind inc subs)
  | 0, _, _, _ => fun hp _ => hp
  | fuel + 1, ind, inc, subs => fun hp hg => by
    by_cases h1 : s.length < ind + inc
    · simpa [lzLoop, h1] using hp
    · by_cases h2 : candidate s ind inc ∈ subs
      · simp only [lzLoop, if_neg h1, if_pos h2]
        refine lzLoop_prefixClosed s fuel ind (inc + 1) subs hp ?_
        intro k hk1 hk2
        rcases Nat.lt_or_ge k inc with hk | hk
        · exact hg k hk1 hk
        · have hkeq : k = inc := by omega
          subst hkeq
          exact h2
      · simp only [lzLoop, if_neg h1, if_neg h2]
        refine lzLoop_prefixClosed s fuel (ind + inc) 1 _ ?_ ?_
        · refine prefixClosed_concat hp ?_
          intro k hk1 hk2
          have hlen : (candidate s ind inc).length = inc := by
            simp only [candidate, List.length_take, List.length_drop]
            omega
          rw [hlen] at hk2
          have htk : (candidate s ind inc).take k = candidate s ind k := by
            simp only [candidate, List.take_take]
            congr 1
            omega
          rw [htk]
          exact hg k hk1 hk2
        · intro k hk1 hk2
          omega

/-! ## Claim theorems -/

/-- Claim C1: for every finite sequence `s`, the complexity entry point
returns exactly the length of the decomposition entry point's result:
`lempel_ziv_complexity_slow(s) = len(lempel_ziv_decomposition(s))`, the two
parse loops being equivalent. -/
theorem complexity_slow_eq_length_decomposition (s : List α) :
    lempel_ziv_complexity_slow s = (lempel_ziv_decomposition s).length :=
  lzCountLoop_eq_length s (s.length + 1) 0 1 []

/-- Claim C2: concatenating (in order) the phrase contents returned by
`lempel_ziv_decomposition(s)` yields a prefix of `s` (a `take` of `s`), and
it equals `s` itself exactly when no dangling tail remains after the
concatenated phrases. -/
theorem decomposition_flatten_is_take (s : List α) :
    (∃ m, m ≤ s.length ∧ (lempel_ziv_decomposition s).flatten = s.take m) ∧
    ((lempel_ziv_decomposition s).flatten = s ↔
      s.drop (lempel_ziv_decomposition s).flatten.length = []) := by
  obtain ⟨m, _, hm2, hm3⟩ :=
    lzLoop_flatten s (s.length + 1) 0 1 [] (Nat.zero_le _) (by simp)
  have hd : (lempel_ziv_decomposition s).flatten = s.take m := hm3
  refine ⟨⟨m, hm2, hd⟩, ?_, ?_⟩
  · intro h
    rw [h]
    exact List.drop_length s
  · intro h
    rw [hd] at h ⊢
    rw [List.drop_eq_nil_iff, List.length_take] at h
    exact List.take_of_length_le (by omega)

/-- Claim C3: the phrases returned by `lempel_ziv_decomposition(s)` are
pairwise distinct by content, because the parser only inserts a candidate
into the phrase set when it is not already a member. -/
theorem decomposition_nodup (s : List α) :
    (lempel_ziv_decomposition s).Nodup :=
  lzLoop_nodup s (s.length + 1) 0 1 [] List.nodup_nil

/-- Claim C4: on the input `"1001111011000010"`,
`lempel_ziv_complexity_slow` returns 8 and `lempel_ziv_decomposition`
returns exactly `["1","0","01","11","10","110","00","010"]` in order. -/
theorem decomposition_reference_example :
    lempel_ziv_complexity_slow ("1001111011000010".toList) = 8 ∧
    lempel_ziv_decomposition ("1001111011000010".toList) =
      ["1".toList, "0".toList, "01".toList, "11".toList, "10".toList,
       "110".toList, "00".toList, "010".toList] := by
  decide

/-- Claim C5: on the all-identical input `"0000"`,
`lempel_ziv_complexity_slow` returns 2 and `lempel_ziv_decomposition`
returns exactly `["0","00"]`: the final unmatched symbol is dropped from
the decomposition and excluded from the count by the loop-exit rule. -/
theorem decomposition_all_identical_example :
    lempel_ziv_complexity_slow ("0000".toList) = 2 ∧
    lempel_ziv_decomposition ("0000".toList) = ["0".toList, "00".toList] := by
  decide

/-- Claim C6: on the empty sequence, `lempel_ziv_decomposition` returns the
empty list and `lempel_ziv_complexity_slow` returns 0. -/
theorem decomposition_empty_sequence :
    lempel_ziv_decomposition ([] : List α) = [] ∧
    lempel_ziv_complexity_slow ([] : List α) = 0 :=
  ⟨rfl, rfl⟩

/-- Claim C7: the parse loop terminates on every finite input: since each
iteration strictly increases `ind + inc`, which is bounded by `n + 1`, fuel
`n + 1` is enough, and any surplus fuel leaves the result of both loops
unchanged — the fuel-indexed loops have stabilized at the entry points'
fuel, which is termination of the unbounded `while True` loop. -/
theorem parse_loop_terminates (s : List α) (extra : Nat) :
    lzLoop s (s.length + 1 + extra) 0 1 [] = lempel_ziv_decomposition s ∧
    lzCountLoop s (s.length + 1 + extra) 0 1 [] = lempel_ziv_complexity_slow s := by
  induction extra with
  | zero => exact ⟨rfl, rfl⟩
  | succ k ih =>
    have heq : s.length + 1 + (k + 1) = (s.length + 1 + k) + 1 := rfl
    have h1 : lzLoop s (s.length + 1 + (k + 1)) 0 1 [] = lempel_ziv_decomposition s := by
      rw [heq, lzLoop_fuel_stable s (s.length + 1 + k) 0 1 [] (by omega)]
      exact ih.1
    refine ⟨h1, ?_⟩
    rw [lzCountLoop_eq_length, h1]
    exact (lzCountLoop_eq_length s (s.length + 1) 0 1 []).symm

/-- Claim C8: both entry points are total and no indexing-error branch is
reachable: the checked loop, which signals `none` whenever the slice
`sequence[ind : ind + inc]` would be taken out of bounds, always returns
`some` of the plain loop's result, because the loop-exit guard guarantees
`ind + inc ≤ n` at every slice. -/
theorem parse_loop_slice_safe (s : List α) :
    ∀ fuel ind inc subs,
      lzLoopChecked s fuel ind inc subs = some (lzLoop s fuel ind inc subs)
  | 0, _, _, _ => rfl
  | fuel + 1, ind, inc, subs => by
    by_cases h1 : s.length < ind + inc
    · simp [lzLoopChecked, lzLoop, h1]
    · have hle : ind + inc ≤ s.length := Nat.le_of_not_lt h1
      by_cases h2 : candidate s ind inc ∈ subs
      · simp only [lzLoopChecked, lzLoop, if_neg h1, if_pos hle, if_pos h2]
        exact parse_loop_slice_safe s fuel ind (inc + 1) subs
      · simp only [lzLoopChecked, lzLoop, if_neg h1, if_pos hle, if_neg h2]
        exact parse_loop_slice_safe s fuel (ind + inc) 1 _

/-- Claim C9: whenever the parse drops a non-empty tail (the suffix of `s`
after the concatenation of the returned phrases), that tail's content
equals the content of some phrase already present in the returned
decomposition — the discarded symbols are a repeat of a seen phrase. -/
theorem dropped_tail_is_seen_phrase (s : List α)
    (hne : s.drop (lempel_ziv_decomposition s).flatten.length ≠ []) :
    s.drop (lempel_ziv_decomposition s).flatten.length ∈
      lempel_ziv_decomposition s :=
  lzLoop_tail_mem s (s.length + 1) 0 1 [] (by omega) (Nat.zero_le _) (by simp)
    (fun habs => absurd habs (by omega)) hne

/-- Witness for Claim C9 at the concrete input `"0000"`: the parse drops
the tail `"0"`, which is the first phrase of the decomposition. -/
theorem dropped_tail_is_seen_phrase_witness :
    "0000".toList.drop (lempel_ziv_decomposition ("0000".toList)).flatten.length ≠ [] ∧
    "0000".toList.drop (lempel_ziv_decomposition ("0000".toList)).flatten.length ∈
      lempel_ziv_decomposition ("0000".toList) :=
  ⟨by decide, dropped_tail_is_seen_phrase ("0000".toList) (by decide)⟩

/-- Claim C10: for every phrase of `lempel_ziv_decomposition(s)`, every
proper non-empty prefix of that phrase (its `take k` for `1 ≤ k` below its
length) occurs among the phrases strictly before it: a candidate only grows
past length `k` because its length-`k` prefix was already in the set. -/
theorem decomposition_prefix_closure (s : List α) (i : Nat)
    (h : i < (lempel_ziv_decomposition s).length) (k : Nat)
    (hk1 : 1 ≤ k) (hk2 : k < (lempel_ziv_decomposition s)[i].length) :
    (lempel_ziv_decomposition s)[i].take k ∈ (lempel_ziv_decomposition s).take i :=
  lzLoop_prefixClosed s (s.length + 1) 0 1 []
    (fun _ hlt => absurd hlt (by simp))
    (fun k hk1 hk2 => by omega) i h k hk1 hk2

/-- Witness for Claim C10 at the concrete input `"1001111011000010"`: the
phrase at index 5 is `"110"`, and its proper prefix of length 2, `"11"`,
occurs among the first five phrases. -/
theorem decomposition_prefix_closure_witness :
    5 < (lempel_ziv_decomposition ("1001111011000010".toList)).length ∧
    1 ≤ 2 ∧
    2 < ((lempel_ziv_decomposition ("1001111011000010".toList)).get ⟨5, by decide⟩).length ∧
    ((lempel_ziv_decomposition ("1001111011000010".toList)).get ⟨5, by decide⟩).take 2 ∈
      (lempel_ziv_decomposition ("1001111011000010".toList)).take 5 :=
  ⟨by decide, by decide, by decide,
    decomposition_prefix_closure ("1001111011000010".toList) 5 (by decide) 2
      (by decide) (by decide)⟩
